import Mathlib

/-
Verification of the Connect-4 rules engine from `src/game.rs`.

The Rust data model and operations are shallowly embedded: the `i32` board
dimensions and indices become `Int` (the values the program manipulates are far
from the `i32` range bounds, and every cast `as usize` the code performs is done
on values already checked nonnegative, modelled by `Int.toNat`); `Vec` becomes
`List`; `&mut self` methods become functions returning the updated value.
-/

namespace Connect4

/-- The `Disk` enum of `game.rs`: the color of a placed piece. -/
inductive Disk where
  | red
  | blue
deriving DecidableEq, Repr

/-- The `Turn` enum of `game.rs`: whose move is next. -/
inductive Turn where
  | red
  | blue
deriving DecidableEq, Repr

/-- The method `Turn::next`: toggles Red and Blue.  Rust mutates `self` in place;
modelled as a pure function returning the new turn. -/
def Turn.next : Turn → Turn
  | .red => .blue
  | .blue => .red

/-- The method `Turn::to_disk`. -/
def Turn.to_disk : Turn → Disk
  | .red => .red
  | .blue => .blue

/-- The method `Disk::to_turn`. -/
def Disk.to_turn : Disk → Turn
  | .red => .red
  | .blue => .blue

/-- The `Board` struct of `game.rs`: `rows, cols: i32` and
`disks: Vec<Vec<Option<Disk>>>`, indexed `disks[col][row]`. -/
structure Board where
  rows : Int
  cols : Int
  disks : List (List (Option Disk))
deriving DecidableEq, Repr

/-- The constructor `Board::new(rows, cols)`:
`vec![vec![None; rows as usize]; cols as usize]`.  The program only constructs
boards with positive dimensions, for which `as usize` is the identity, modelled
by `Int.toNat`. -/
def Board.new (rows cols : Int) : Board :=
  { rows := rows, cols := cols,
    disks := List.replicate cols.toNat (List.replicate rows.toNat none) }

/-- The cell access `self.disks[col as usize][row as usize]` performed by
`check_for_win` and `check_for_wins`.  The code performs it only after checking
`0 <= row < rows` and `0 <= col < cols`; out-of-shape indices are modelled with
defaults here, and proved in bounds under the shape invariant separately. -/
def Board.cell (b : Board) (row col : Int) : Option Disk :=
  (b.disks.getD col.toNat []).getD row.toNat none

/-- The method `Board::drop_disk(col, disk)`: if `col` is in `0..cols`, scan the
column from the bottom (`iter().rev().position(|disk| disk.is_none())`) for the
first empty slot, place the disk at the corresponding absolute index
`len - position - 1` and return it; otherwise, or if the column has no empty
slot, return `none`.  Rust mutates `self`; modelled as returning the updated
board paired with the `Option<i32>` result. -/
def Board.drop_disk (b : Board) (col : Int) (disk : Disk) : Board × Option Int :=
  if 0 ≤ col ∧ col < b.cols then
    let row := b.disks.getD col.toNat []
    match row.reverse.findIdx? (fun d => d.isNone) with
    | some revIdx =>
      let index := row.length - revIdx - 1
      ({ b with disks := b.disks.set col.toNat (row.set index (some disk)) },
        some (index : Int))
    | none => (b, none)
  else (b, none)

/-- The eight `(row_delta, col_delta)` pairs tried by `check_for_win`, in source
order: down, up, right, left, down-right, up-left, down-left, up-right
(row indices grow downward). -/
def directions : List (Int × Int) :=
  [(1, 0), (-1, 0), (0, 1), (0, -1), (1, 1), (-1, -1), (1, -1), (-1, 1)]

/-- The inner `for _ in 1..4` loop of `check_for_win`: take `fuel` more steps in
direction `(rowDelta, colDelta)` from `(row, col)` with running `count`.  An
in-bounds cell holding the same disk increments the count and continues; an
in-bounds mismatching or empty cell breaks; an out-of-bounds step does not break
(the loop has no `else` arm and keeps stepping, exactly as in the source). -/
def Board.scanDir (b : Board) (disk : Disk) (rowDelta colDelta : Int) :
    Nat → Int → Int → Nat → Int × Int × Nat
  | 0, row, col, count => (row, col, count)
  | fuel + 1, row, col, count =>
    let row' := row + rowDelta
    let col' := col + colDelta
    if 0 ≤ row' ∧ row' < b.rows ∧ 0 ≤ col' ∧ col' < b.cols then
      match b.cell row' col' with
      | some disk2 =>
        if disk2 = disk then b.scanDir disk rowDelta colDelta fuel row' col' (count + 1)
        else (row', col', count)
      | none => (row', col', count)
    else
      b.scanDir disk rowDelta colDelta fuel row' col' count

/-- The method `Board::check_for_win(row, col, disk)`: try the eight `directions`
in order; for each, run the three-step scan with `count` starting at 1; the
first direction whose final count reaches 4 returns the final scan position. -/
def Board.check_for_win (b : Board) (row col : Int) (disk : Disk) :
    Option (Int × Int) :=
  directions.findSome? fun d =>
    let r := b.scanDir disk d.1 d.2 3 row col 1
    if 4 ≤ r.2.2 then some (r.1, r.2.1) else none

/-- The method `Board::check_for_wins()`: scan the grid row-major (`row` outer
over `0..rows`, `col` inner over `0..cols`); the first occupied cell whose
`check_for_win` succeeds yields `(disk.to_turn(), (row, col), delta)`. -/
def Board.check_for_wins (b : Board) : Option (Turn × (Int × Int) × (Int × Int)) :=
  (List.range b.rows.toNat).findSome? fun (row : Nat) =>
    (List.range b.cols.toNat).findSome? fun (col : Nat) =>
      match b.cell (row : Int) (col : Int) with
      | some disk =>
        match b.check_for_win (row : Int) (col : Int) disk with
        | some delta => some (disk.to_turn, ((row : Int), (col : Int)), delta)
        | none => none
      | none => none

/-- The `MoveHistory` struct: the ordered log `moves: Vec<(i32, Turn)>`. -/
structure MoveHistory where
  moves : List (Int × Turn)
deriving DecidableEq, Repr

/-- The constructor `MoveHistory::new()`: the empty log. -/
def MoveHistory.new : MoveHistory := { moves := [] }

/-- The `GameData` struct serialized to the save file. -/
structure GameData where
  board : Board
  turn : Turn
  history : MoveHistory
deriving DecidableEq, Repr

/-- The triple of engine resources holding the in-memory game state. -/
structure Session where
  board : Board
  turn : Turn
  history : MoveHistory
deriving DecidableEq, Repr

/-- The system-level `drop_disk` function of `game.rs` (the per-click handler),
restricted to its state effects: call `Board::drop_disk` with the current turn's
disk; on success, append `(col, turn)` to the move history and advance the turn;
on failure, nothing changes.  The drawing and UI-node spawning it also performs
touch no game state and are omitted. -/
def dropDiskSystem (s : Session) (col : Int) : Session :=
  match s.board.drop_disk col s.turn.to_disk with
  | (b, some _) =>
    { board := b, turn := s.turn.next,
      history := { moves := s.history.moves ++ [(col, s.turn)] } }
  | (b, none) => { s with board := b }

/-- The state effects of `new_game` (the `GameChange::New` arm): a fresh board,
Red to move, empty history. -/
def Session.new (rows cols : Int) : Session :=
  { board := Board.new rows cols, turn := Turn.red, history := MoveHistory.new }

/-- Folding a sequence of column clicks through the system `drop_disk`. -/
def applyDrops (s : Session) : List Int → Session
  | [] => s
  | c :: cs => applyDrops (dropDiskSystem s c) cs

/-- A session the program can actually be in: produced from a fresh game by some
sequence of clicks (each either a successful or a rejected drop). -/
def Reachable (s : Session) : Prop :=
  ∃ rows cols drops, s = applyDrops (Session.new rows cols) drops

/-- Modelled from the spec: the save file's wire tokens.  The actual encoding is
`serde_json` together with the derived `Serialize`/`Deserialize` impls — library
code outside this repository.  The spec fixes only the content
`{board: {rows, cols, disks}, turn: marker, history: list of (column, turn)}`
and that the chosen format must round-trip losslessly, so the snapshot is
modelled as a flat token stream with length-prefixed sequences. -/
inductive Tok where
  | int : Int → Tok
  | red : Tok
  | blue : Tok
  | emptyCell : Tok
  | fullCell : Tok
deriving DecidableEq, Repr

/-- Modelled from the spec: encoding of one board cell. -/
def encodeCell : Option Disk → List Tok
  | none => [.emptyCell]
  | some .red => [.fullCell, .red]
  | some .blue => [.fullCell, .blue]

/-- Modelled from the spec: encoding of one board column, length-prefixed. -/
def encodeColumn (c : List (Option Disk)) : List Tok :=
  .int c.length :: c.flatMap encodeCell

/-- Modelled from the spec: encoding of the board — `rows`, `cols`, then the
length-prefixed column list. -/
def encodeBoard (b : Board) : List Tok :=
  .int b.rows :: .int b.cols :: .int b.disks.length :: b.disks.flatMap encodeColumn

/-- Modelled from the spec: encoding of the turn marker. -/
def encodeTurn : Turn → List Tok
  | .red => [.red]
  | .blue => [.blue]

/-- Modelled from the spec: encoding of one history entry. -/
def encodeMove (m : Int × Turn) : List Tok :=
  .int m.1 :: encodeTurn m.2

/-- Modelled from the spec: encoding of the move history, length-prefixed. -/
def encodeHistory (h : MoveHistory) : List Tok :=
  .int h.moves.length :: h.moves.flatMap encodeMove

/-- Modelled from the spec: the serialized `GameData` snapshot written by the
`GameChange::Save` arm — board, then turn, then history. -/
def encodeGameData (g : GameData) : List Tok :=
  encodeBoard g.board ++ encodeTurn g.turn ++ encodeHistory g.history

/-- Modelled from the spec: decode one cell, returning it with the remaining
tokens, or `none` on malformed input. -/
def readCell : List Tok → Option (Option Disk × List Tok)
  | .emptyCell :: rest => some (none, rest)
  | .fullCell :: .red :: rest => some (some .red, rest)
  | .fullCell :: .blue :: rest => some (some .blue, rest)
  | _ => none

/-- Modelled from the spec: decode exactly `n` cells. -/
def readCells : Nat → List Tok → Option (List (Option Disk) × List Tok)
  | 0, ts => some ([], ts)
  | n + 1, ts => do
    let (c, ts) ← readCell ts
    let (cs, ts) ← readCells n ts
    pure (c :: cs, ts)

/-- Modelled from the spec: decode one length-prefixed column. -/
def readColumn : List Tok → Option (List (Option Disk) × List Tok)
  | .int n :: rest => readCells n.toNat rest
  | _ => none

/-- Modelled from the spec: decode exactly `n` columns. -/
def readColumns : Nat → List Tok → Option (List (List (Option Disk)) × List Tok)
  | 0, ts => some ([], ts)
  | n + 1, ts => do
    let (c, ts) ← readColumn ts
    let (cs, ts) ← readColumns n ts
    pure (c :: cs, ts)

/-- Modelled from the spec: decode a board. -/
def readBoard : List Tok → Option (Board × List Tok)
  | .int rows :: .int cols :: .int ncols :: rest => do
    let (ds, ts) ← readColumns ncols.toNat rest
    pure ({ rows := rows, cols := cols, disks := ds }, ts)
  | _ => none

/-- Modelled from the spec: decode a turn marker. -/
def readTurn : List Tok → Option (Turn × List Tok)
  | .red :: rest => some (.red, rest)
  | .blue :: rest => some (.blue, rest)
  | _ => none

/-- Modelled from the spec: decode one history entry. -/
def readMove : List Tok → Option ((Int × Turn) × List Tok)
  | .int c :: rest => do
    let (t, ts) ← readTurn rest
    pure ((c, t), ts)
  | _ => none

/-- Modelled from the spec: decode exactly `n` history entries. -/
def readMoves : Nat → List Tok → Option (List (Int × Turn) × List Tok)
  | 0, ts => some ([], ts)
  | n + 1, ts => do
    let (m, ts) ← readMove ts
    let (ms, ts) ← readMoves n ts
    pure (m :: ms, ts)

/-- Modelled from the spec: decode the length-prefixed move history. -/
def readHistory : List Tok → Option (MoveHistory × List Tok)
  | .int n :: rest => do
    let (ms, ts) ← readMoves n.toNat rest
    pure ({ moves := ms }, ts)
  | _ => none

/-- Modelled from the spec: `serde_json::from_reader::<_, GameData>` — decode the
whole snapshot, failing (`none`) on any malformed content. -/
def decodeGameData (ts : List Tok) : Option GameData := do
  let (b, ts) ← readBoard ts
  let (t, ts) ← readTurn ts
  let (h, _) ← readHistory ts
  pure { board := b, turn := t, history := h }

/-- The outcome reported by the `GameChange::Load` arm (via `println!`). -/
inductive LoadOutcome where
  | ok
  | openFailed
  | readFailed
deriving DecidableEq, Repr

/-- The `GameChange::Load` arm of `check_for_game_change`.  File I/O is modelled
by passing the file's content as `Option (List Tok)`, `none` meaning the file
could not be opened.  On either failure the handler logs and returns before
touching any game state.  On success it runs `new_game` (which resets board,
turn and history) and then overwrites all three with the loaded data. -/
def handleLoad (s : Session) (file : Option (List Tok)) : Session × LoadOutcome :=
  match file with
  | none => (s, .openFailed)
  | some ts =>
    match decodeGameData ts with
    | none => (s, .readFailed)
    | some data =>
      let s1 := Session.new data.board.rows data.board.cols
      ({ s1 with board := data.board, turn := data.turn, history := data.history }, .ok)

/-- One iteration body of the post-Load disk redraw loop of the
`GameChange::Load` arm: for the pair `rc = (row, col)` it indexes
`board.disks[col as usize][row as usize]`; a result of `none` models the panic
of an out-of-bounds index, and otherwise the drawn `(col, row, disk)` triple
(if the cell holds a disk) is appended to the accumulator. -/
def redrawStep (b : Board) (acc : List (Int × Int × Disk)) (rc : Nat × Nat) :
    Option (List (Int × Int × Disk)) :=
  match b.disks[rc.2]? with
  | none => none
  | some column =>
    match column[rc.1]? with
    | none => none
    | some (some disk) => some (acc ++ [((rc.2 : Int), (rc.1 : Int), disk)])
    | some none => some acc

/-- The iteration space and body of the redraw loop: `row` outer and `col` inner,
both over `0..board.rows`, applying `redrawStep` to each `(row, col)` pair in
order. -/
def redrawDisks (b : Board) : Option (List (Int × Int × Disk)) :=
  ((List.range b.rows.toNat).flatMap fun row =>
      (List.range b.rows.toNat).map fun col => (row, col))
    |>.foldlM (redrawStep b) []

/-- The shape invariant of the data model: nonnegative dimensions, `cols`
columns, each of `rows` cells. -/
def Board.Shape (b : Board) : Prop :=
  0 ≤ b.rows ∧ 0 ≤ b.cols ∧ b.disks.length = b.cols.toNat ∧
    ∀ c ∈ b.disks, c.length = b.rows.toNat

instance (b : Board) : Decidable b.Shape := by
  unfold Board.Shape; infer_instance

/-- The gravity invariant on one column: once a slot is occupied, every slot at a
higher index (below it on screen) is occupied. -/
def GravityCol (c : List (Option Disk)) : Prop :=
  ∀ j, j < c.length → ∀ i, i < j → (c.getD i none).isSome → (c.getD j none).isSome

instance (c : List (Option Disk)) : Decidable (GravityCol c) := by
  unfold GravityCol; infer_instance

/-- The gravity invariant on a board: every column satisfies `GravityCol`. -/
def Board.Gravity (b : Board) : Prop :=
  ∀ c ∈ b.disks, GravityCol c

instance (b : Board) : Decidable b.Gravity := by
  unfold Board.Gravity; infer_instance

/-- The bounds check `(0..self.rows).contains(&row) && (0..self.cols).contains(&col)`
of `check_for_win`. -/
def Board.InBounds (b : Board) (row col : Int) : Prop :=
  0 ≤ row ∧ row < b.rows ∧ 0 ≤ col ∧ col < b.cols

instance (b : Board) (row col : Int) : Decidable (b.InBounds row col) := by
  unfold Board.InBounds; infer_instance

/-- Four contiguous cells holding `disk`, starting at `(row, col)` and stepping
by `(rowDelta, colDelta)`, all inside the bounds checks of `check_for_win` —
a win line in that direction. -/
def Board.LineFrom (b : Board) (disk : Disk) (row col rowDelta colDelta : Int) : Prop :=
  ∀ k : Nat, k < 4 →
    b.InBounds (row + k * rowDelta) (col + k * colDelta) ∧
    b.cell (row + k * rowDelta) (col + k * colDelta) = some disk

instance (b : Board) (disk : Disk) (row col rowDelta colDelta : Int) :
    Decidable (b.LineFrom disk row col rowDelta colDelta) := by
  unfold Board.LineFrom; infer_instance

/-! ## Turn alternation and history logging (system-level `drop_disk`) -/

/-- Claim C5: during play, the `Turn` toggles (Red to Blue or Blue to Red)
exactly once when `Board::drop_disk` succeeds, and is left unchanged when
`Board::drop_disk` fails on an invalid or full column. -/
theorem turn_alternates_once_per_successful_drop (s : Session) (col : Int) :
    ((s.board.drop_disk col s.turn.to_disk).2.isSome →
      (dropDiskSystem s col).turn = s.turn.next ∧ s.turn.next ≠ s.turn) ∧
    ((s.board.drop_disk col s.turn.to_disk).2 = none →
      (dropDiskSystem s col).turn = s.turn) := by
  rcases h : s.board.drop_disk col s.turn.to_disk with ⟨b, _ | r⟩
  · refine ⟨fun hs => ?_, fun _ => ?_⟩
    · simp at hs
    · simp [dropDiskSystem, h]
  · refine ⟨fun _ => ⟨?_, ?_⟩, fun hn => ?_⟩
    · simp [dropDiskSystem, h]
    · cases s.turn <;> simp [Turn.next]
    · simp at hn

/-- Witness for C5: on a fresh 2-row, 1-column board, a drop into column 0
succeeds and flips the turn from Red to Blue, while a drop into the invalid
column 5 leaves it Red. -/
theorem turn_alternates_once_per_successful_drop_witness :
    (dropDiskSystem (Session.new 2 1) 0).turn = Turn.blue ∧
    (dropDiskSystem (Session.new 2 1) 5).turn = Turn.red := by
  constructor
  · exact (((turn_alternates_once_per_successful_drop (Session.new 2 1) 0).1
      (by decide)).1).trans rfl
  · exact ((turn_alternates_once_per_successful_drop (Session.new 2 1) 5).2
      (by decide)).trans rfl

/-- Claim C6: during play, exactly one pair `(col, turn-before-the-drop)` is
appended to the end of the `MoveHistory` when `Board::drop_disk` succeeds, and
the history is unchanged when it fails; hence the log's order is the
chronological order of successful drops. -/
theorem history_appends_once_per_successful_drop (s : Session) (col : Int) :
    ((s.board.drop_disk col s.turn.to_disk).2.isSome →
      (dropDiskSystem s col).history.moves = s.history.moves ++ [(col, s.turn)]) ∧
    ((s.board.drop_disk col s.turn.to_disk).2 = none →
      (dropDiskSystem s col).history = s.history) := by
  rcases h : s.board.drop_disk col s.turn.to_disk with ⟨b, _ | r⟩
  · refine ⟨fun hs => ?_, fun _ => ?_⟩
    · simp at hs
    · simp [dropDiskSystem, h]
  · refine ⟨fun _ => ?_, fun hn => ?_⟩
    · simp [dropDiskSystem, h]
    · simp at hn

/-- Witness for C6: on a fresh 2-row, 1-column board, a drop into column 0
appends `(0, Red)`, and a drop into the invalid column 5 leaves the history
empty. -/
theorem history_appends_once_per_successful_drop_witness :
    (dropDiskSystem (Session.new 2 1) 0).history.moves = [((0 : Int), Turn.red)] ∧
    (dropDiskSystem (Session.new 2 1) 5).history = MoveHistory.new := by
  constructor
  · exact ((history_appends_once_per_successful_drop (Session.new 2 1) 0).1
      (by decide)).trans rfl
  · exact ((history_appends_once_per_successful_drop (Session.new 2 1) 5).2
      (by decide)).trans rfl

/-! ## Load failure handling -/

/-- Claim C8: when a Load command fails — the save file cannot be opened, or its
content does not deserialize into `GameData` — the in-memory board, turn and
move history are left exactly unchanged (the handler returns early before any
mutation), and the failure is reported (logged) rather than fatal. -/
theorem load_failure_leaves_state_unchanged (s : Session) (file : Option (List Tok)) :
    (file = none → handleLoad s file = (s, LoadOutcome.openFailed)) ∧
    (∀ ts, file = some ts → decodeGameData ts = none →
      handleLoad s file = (s, LoadOutcome.readFailed)) := by
  constructor
  · rintro rfl; rfl
  · rintro ts rfl hdec
    simp [handleLoad, hdec]

/-- Witness for C8: an unopenable file and a malformed file both leave a fresh
1-by-1 session untouched and report the respective failure. -/
theorem load_failure_leaves_state_unchanged_witness :
    handleLoad (Session.new 1 1) none = (Session.new 1 1, LoadOutcome.openFailed) ∧
    handleLoad (Session.new 1 1) (some [Tok.red]) =
      (Session.new 1 1, LoadOutcome.readFailed) := by
  constructor
  · exact (load_failure_leaves_state_unchanged (Session.new 1 1) none).1 rfl
  · exact (load_failure_leaves_state_unchanged (Session.new 1 1) (some [Tok.red])).2
      [Tok.red] rfl (by decide)

/-! ## Helper lemmas on list access -/

/-- A `getD` at an in-range index is the element there. -/
theorem getD_in_range {α : Type} {l : List α} {n : Nat} (d : α) (h : n < l.length) :
    l.getD n d = l.get ⟨n, h⟩ := by
  rw [List.getD_eq_getElem?_getD, List.getElem?_eq_getElem h]
  rfl

/-- A `getD` at an out-of-range index is the default. -/
theorem getD_out_of_range {α : Type} {l : List α} {n : Nat} (d : α) (h : l.length ≤ n) :
    l.getD n d = d := by
  rw [List.getD_eq_getElem?_getD, List.getElem?_eq_none h]
  rfl

/-- Every `getD` from a constant list yields that constant. -/
theorem getD_replicate_self {α : Type} {n i : Nat} {a : α} :
    (List.replicate n a).getD i a = a := by
  rcases Nat.lt_or_ge i n with h | h
  · rw [getD_in_range a (by simpa using h)]
    simp
  · exact getD_out_of_range a (by simpa using h)

/-- `getD` after a `set` at the written index. -/
theorem getD_set_eq {α : Type} {l : List α} {i : Nat} {a d : α} (h : i < l.length) :
    (l.set i a).getD i d = a := by
  rw [getD_in_range d (by simpa using h)]
  simp [List.get_eq_getElem, List.getElem_set_self]

/-- `getD` after a `set` at another index. -/
theorem getD_set_ne {α : Type} {l : List α} {i j : Nat} {a d : α} (h : i ≠ j) :
    (l.set i a).getD j d = l.getD j d := by
  rw [List.getD_eq_getElem?_getD, List.getD_eq_getElem?_getD, List.getElem?_set_ne h]

/-! ## The column scan of `drop_disk` -/

/-- The reversed scan `iter().rev().position(|disk| disk.is_none())` finds the
highest-index empty slot: slot `len - revIdx - 1` is empty and every slot with a
strictly larger index is occupied. -/
theorem revScan_spec {c : List (Option Disk)} {revIdx : Nat}
    (h : c.reverse.findIdx? (fun d => d.isNone) = some revIdx) :
    revIdx < c.length ∧
    c.getD (c.length - revIdx - 1) none = none ∧
    ∀ j, c.length - revIdx - 1 < j → j < c.length → (c.getD j none).isSome := by
  rw [List.findIdx?_eq_some_iff_getElem] at h
  obtain ⟨hlt, hp, hprev⟩ := h
  rw [List.length_reverse] at hlt
  refine ⟨hlt, ?_, ?_⟩
  · have hrl : revIdx < c.reverse.length := by rw [List.length_reverse]; exact hlt
    have e1 : c.reverse[revIdx]? = some (c.reverse.get ⟨revIdx, hrl⟩) :=
      List.getElem?_eq_getElem hrl
    rw [List.getElem?_reverse hlt] at e1
    simp only [Option.isNone_iff_eq_none] at hp
    rw [List.getD_eq_getElem?_getD,
      show c.length - revIdx - 1 = c.length - 1 - revIdx by omega, e1]
    exact hp
  · intro j hj1 hj2
    have hj' : c.length - 1 - j < revIdx := by omega
    have hjr : c.length - 1 - j < c.reverse.length := by rw [List.length_reverse]; omega
    have e2 : c.reverse[c.length - 1 - j]? = some (c.reverse.get ⟨c.length - 1 - j, hjr⟩) :=
      List.getElem?_eq_getElem hjr
    rw [List.getElem?_reverse (by omega),
      show c.length - 1 - (c.length - 1 - j) = j by omega] at e2
    rw [List.getD_eq_getElem?_getD, e2]
    rcases hcase : c.reverse.get ⟨c.length - 1 - j, hjr⟩ with _ | d
    · exfalso
      exact hprev (c.length - 1 - j) hj'
        (show (c.reverse.get ⟨c.length - 1 - j, hjr⟩).isNone = true by rw [hcase]; rfl)
    · simp

/-! ## Unfolding equations for `drop_disk` -/

/-- `drop_disk` with the column check failing. -/
theorem drop_disk_eq_of_invalid {b : Board} {col : Int} {disk : Disk}
    (hg : ¬(0 ≤ col ∧ col < b.cols)) :
    b.drop_disk col disk = (b, none) := by
  unfold Board.drop_disk
  rw [if_neg hg]

/-- `drop_disk` on a column with no empty slot. -/
theorem drop_disk_eq_of_full {b : Board} {col : Int} {disk : Disk}
    (hg : 0 ≤ col ∧ col < b.cols)
    (hf : (b.disks.getD col.toNat []).reverse.findIdx? (fun d => d.isNone) = none) :
    b.drop_disk col disk = (b, none) := by
  unfold Board.drop_disk
  rw [if_pos hg]
  simp only [hf]

/-- `drop_disk` when the reversed scan finds an empty slot. -/
theorem drop_disk_eq_of_findIdx {b : Board} {col : Int} (disk : Disk) {revIdx : Nat}
    (hg : 0 ≤ col ∧ col < b.cols)
    (hf : (b.disks.getD col.toNat []).reverse.findIdx? (fun d => d.isNone) = some revIdx) :
    b.drop_disk col disk =
      (Board.mk b.rows b.cols
        (b.disks.set col.toNat ((b.disks.getD col.toNat []).set
          ((b.disks.getD col.toNat []).length - revIdx - 1) (some disk))),
        some (((b.disks.getD col.toNat []).length - revIdx - 1 : Nat) : Int)) := by
  unfold Board.drop_disk
  rw [if_pos hg]
  simp only [hf]

/-! ## Shape invariant -/

/-- `Board::new` builds `cols` columns of `rows` empty cells each. -/
theorem shape_new (rows cols : Int) (hr : 0 ≤ rows) (hc : 0 ≤ cols) :
    (Board.new rows cols).Shape := by
  refine ⟨hr, hc, ?_, ?_⟩
  · simp [Board.new]
  · intro c hcmem
    simp only [Board.new, List.mem_replicate] at hcmem
    simp [Board.new, hcmem.2]

/-- Under the shape invariant, a column index passing the `0..cols` check is in
bounds for the indexing `self.disks[col as usize]`. -/
theorem col_index_lt {b : Board} {col : Int} (hs : b.Shape) (h0 : 0 ≤ col)
    (hlt : col < b.cols) : col.toNat < b.disks.length := by
  rw [hs.2.2.1]; omega

/-- `drop_disk` preserves the shape invariant, on success and on failure. -/
theorem shape_drop {b : Board} (col : Int) (disk : Disk) (hs : b.Shape) :
    ((b.drop_disk col disk).1).Shape := by
  by_cases hg : 0 ≤ col ∧ col < b.cols
  · cases hf : (b.disks.getD col.toNat []).reverse.findIdx? (fun d => d.isNone) with
    | none =>
      rw [drop_disk_eq_of_full hg hf]
      exact hs
    | some revIdx =>
      rw [drop_disk_eq_of_findIdx _ hg hf]
      refine ⟨hs.1, hs.2.1, ?_, ?_⟩
      · simpa using hs.2.2.1
      · intro c hcmem
        rcases List.mem_or_eq_of_mem_set hcmem with hmem | rfl
        · exact hs.2.2.2 c hmem
        · rw [List.length_set, getD_in_range [] (col_index_lt hs hg.1 hg.2)]
          exact hs.2.2.2 _ (List.get_mem _ _ _)
  · rw [drop_disk_eq_of_invalid hg]
    exact hs

/-! ## Gravity invariant -/

/-- An all-empty column satisfies the gravity invariant vacuously. -/
theorem gravityCol_replicate (n : Nat) : GravityCol (List.replicate n none) := by
  intro j hj i hi hsome
  rw [getD_replicate_self] at hsome
  simp at hsome

/-- Setting the highest-index empty slot of a column preserves the gravity
invariant. -/
theorem gravityCol_set_top {c : List (Option Disk)} {i : Nat} {d : Disk}
    (hg : GravityCol c) (hi : i < c.length)
    (habove : ∀ j, i < j → j < c.length → (c.getD j none).isSome) :
    GravityCol (c.set i (some d)) := by
  intro j hj k hk hsome
  rw [List.length_set] at hj
  by_cases hji : i = j
  · subst hji
    rw [getD_set_eq hi]
    simp
  · rw [getD_set_ne hji]
    by_cases hgt : i < j
    · exact habove j hgt hj
    · have hine : i ≠ k := by omega
      rw [getD_set_ne hine] at hsome
      exact hg j hj k hk hsome

/-- A fresh board satisfies the gravity invariant. -/
theorem gravity_new (rows cols : Int) : (Board.new rows cols).Gravity := by
  intro c hcmem
  simp only [Board.new, List.mem_replicate] at hcmem
  rw [hcmem.2]
  exact gravityCol_replicate _

/-- `drop_disk` preserves the gravity invariant, on success and on failure. -/
theorem gravity_drop {b : Board} (col : Int) (disk : Disk) (hg0 : b.Gravity) :
    ((b.drop_disk col disk).1).Gravity := by
  by_cases hg : 0 ≤ col ∧ col < b.cols
  · cases hf : (b.disks.getD col.toNat []).reverse.findIdx? (fun d => d.isNone) with
    | none =>
      rw [drop_disk_eq_of_full hg hf]
      exact hg0
    | some revIdx =>
      obtain ⟨hlt, hempty, habove⟩ := revScan_spec hf
      rw [drop_disk_eq_of_findIdx _ hg hf]
      intro c hcmem
      rcases List.mem_or_eq_of_mem_set hcmem with hmem | rfl
      · exact hg0 c hmem
      · have hcl : col.toNat < b.disks.length := by
          by_contra hcl
          have hc0 : b.disks.getD col.toNat [] = [] := getD_out_of_range [] (by omega)
          rw [hc0] at hlt
          simp at hlt
        have hg0c : GravityCol (b.disks.getD col.toNat []) := by
          rw [getD_in_range [] hcl]
          exact hg0 _ (List.get_mem _ _ _)
        exact gravityCol_set_top hg0c (by omega) habove
  · rw [drop_disk_eq_of_invalid hg]
    exact hg0

/-- Claim C4: the gravity invariant — in every column, once the cell at some row
index is occupied, every cell at a larger row index of that column is occupied
(stacks fill from the bottom with no gaps) — holds for every board produced by
`Board::new(rows, cols)` and is preserved by every call to `Board::drop_disk`,
whether the drop succeeds or fails. -/
theorem gravity_invariant :
    (∀ rows cols : Int, (Board.new rows cols).Gravity) ∧
    (∀ (b : Board) (col : Int) (disk : Disk), b.Gravity →
      ((b.drop_disk col disk).1).Gravity) :=
  ⟨gravity_new, fun _ col disk h => gravity_drop col disk h⟩

/-- Witness for C4: a fresh 2-by-2 board satisfies gravity, and still does after
a drop into column 0 (which lands at the bottom, row 1). -/
theorem gravity_invariant_witness :
    (Board.new 2 2).Gravity ∧ (((Board.new 2 2).drop_disk 0 Disk.red).1).Gravity := by
  have h1 := gravity_invariant.1 2 2
  exact ⟨h1, gravity_invariant.2 (Board.new 2 2) 0 Disk.red h1⟩

/-- Claim C10: for positive dimensions, `Board::new(rows, cols)` builds `cols`
columns of `rows` cells, `drop_disk` preserves this shape, and under it the
index `disks[col]` taken by `drop_disk` after its `0..cols` check, and the index
`disks[col][row]` taken by `check_for_win` and `check_for_wins` after their
`0..rows` and `0..cols` checks, are in bounds — these operations never index out
of range. -/
theorem shape_invariant_and_indexing_in_bounds :
    (∀ rows cols : Int, 0 < rows → 0 < cols →
      (Board.new rows cols).disks.length = cols.toNat ∧
      (∀ c ∈ (Board.new rows cols).disks, c.length = rows.toNat) ∧
      (Board.new rows cols).Shape) ∧
    (∀ (b : Board) (col : Int) (disk : Disk), b.Shape →
      ((b.drop_disk col disk).1).Shape) ∧
    (∀ (b : Board) (col : Int), b.Shape → 0 ≤ col → col < b.cols →
      col.toNat < b.disks.length) ∧
    (∀ (b : Board) (row col : Int), b.Shape → 0 ≤ row → row < b.rows →
      0 ≤ col → col < b.cols →
      ∃ h : col.toNat < b.disks.length,
        row.toNat < (b.disks.get ⟨col.toNat, h⟩).length) := by
  refine ⟨?_, ?_, ?_, ?_⟩
  · intro rows cols hr hc
    have hs := shape_new rows cols (le_of_lt hr) (le_of_lt hc)
    exact ⟨hs.2.2.1, hs.2.2.2, hs⟩
  · intro b col disk hs
    exact shape_drop col disk hs
  · intro b col hs h0 hlt
    exact col_index_lt hs h0 hlt
  · intro b row col hs hr0 hrlt hc0 hclt
    refine ⟨col_index_lt hs hc0 hclt, ?_⟩
    rw [hs.2.2.2 _ (List.get_mem _ _ _)]
    omega

/-- Witness for C10: the shape facts evaluated on a fresh 1-by-2 board and after
a drop into its column 0. -/
theorem shape_invariant_and_indexing_in_bounds_witness :
    (Board.new 1 2).Shape ∧ (((Board.new 1 2).drop_disk 0 Disk.red).1).Shape ∧
    (0 : Int).toNat < (Board.new 1 2).disks.length := by
  have hs := (shape_invariant_and_indexing_in_bounds.1 1 2 (by decide) (by decide)).2.2
  refine ⟨hs, shape_invariant_and_indexing_in_bounds.2.1 _ 0 Disk.red hs, ?_⟩
  exact shape_invariant_and_indexing_in_bounds.2.2.1 _ 0 hs (by decide) (by decide)

/-! ## Functional specification of `drop_disk` -/

/-- `drop_disk` fails exactly on an out-of-range column or a full column. -/
theorem drop_disk_none_iff (b : Board) (col : Int) (disk : Disk) :
    (b.drop_disk col disk).2 = none ↔
      ¬(0 ≤ col ∧ col < b.cols) ∨
        ∀ cell ∈ b.disks.getD col.toNat [], cell.isSome := by
  constructor
  · intro h
    by_cases hg : 0 ≤ col ∧ col < b.cols
    · right
      cases hf : (b.disks.getD col.toNat []).reverse.findIdx? (fun d => d.isNone) with
      | some revIdx =>
        rw [drop_disk_eq_of_findIdx _ hg hf] at h
        simp at h
      | none =>
        intro cell hcell
        have hff := List.findIdx?_eq_none_iff.mp hf cell (List.mem_reverse.mpr hcell)
        cases cell with
        | none => simp at hff
        | some d => simp
    · exact Or.inl hg
  · intro h
    by_cases hg : 0 ≤ col ∧ col < b.cols
    · rcases h with h | h
      · exact absurd hg h
      · have hf : (b.disks.getD col.toNat []).reverse.findIdx? (fun d => d.isNone) = none := by
          rw [List.findIdx?_eq_none_iff]
          intro x hx
          have hsx := h x (List.mem_reverse.mp hx)
          cases x with
          | none => simp at hsx
          | some d => rfl
        rw [drop_disk_eq_of_full hg hf]
    · rw [drop_disk_eq_of_invalid hg]

/-- A failed `drop_disk` leaves the board untouched. -/
theorem drop_disk_none_eq (b : Board) (col : Int) (disk : Disk)
    (h : (b.drop_disk col disk).2 = none) : (b.drop_disk col disk).1 = b := by
  by_cases hg : 0 ≤ col ∧ col < b.cols
  · cases hf : (b.disks.getD col.toNat []).reverse.findIdx? (fun d => d.isNone) with
    | some revIdx =>
      rw [drop_disk_eq_of_findIdx _ hg hf] at h
      simp at h
    | none => rw [drop_disk_eq_of_full hg hf]
  · rw [drop_disk_eq_of_invalid hg]

/-- A successful `drop_disk` lands at the highest-index empty slot of the column
(the first empty slot found scanning from row `rows - 1` upward) and writes the
disk exactly there. -/
theorem drop_disk_some_spec {b : Board} {col : Int} {disk : Disk} {r : Int}
    (h : (b.drop_disk col disk).2 = some r) :
    (0 ≤ col ∧ col < b.cols) ∧
    ∃ i : Nat, r = (i : Int) ∧ i < (b.disks.getD col.toNat []).length ∧
      (b.disks.getD col.toNat []).getD i none = none ∧
      (∀ j, i < j → j < (b.disks.getD col.toNat []).length →
        ((b.disks.getD col.toNat []).getD j none).isSome) ∧
      (b.drop_disk col disk).1 =
        Board.mk b.rows b.cols
          (b.disks.set col.toNat ((b.disks.getD col.toNat []).set i (some disk))) := by
  by_cases hg : 0 ≤ col ∧ col < b.cols
  · cases hf : (b.disks.getD col.toNat []).reverse.findIdx? (fun d => d.isNone) with
    | none =>
      rw [drop_disk_eq_of_full hg hf] at h
      simp at h
    | some revIdx =>
      obtain ⟨hlt, hempty, habove⟩ := revScan_spec hf
      have heq := drop_disk_eq_of_findIdx disk hg hf
      rw [heq] at h
      simp only [Option.some.injEq] at h
      exact ⟨hg, (b.disks.getD col.toNat []).length - revIdx - 1, h.symm, by omega,
        hempty, habove, by rw [heq]⟩
  · rw [drop_disk_eq_of_invalid hg] at h
    simp at h

/-- Uniqueness of the landing slot: if slot `i` of the column is empty and every
slot with a larger index is occupied, the drop lands exactly at `i`. -/
theorem drop_disk_landing {b : Board} {col : Int} (disk : Disk)
    (hg : 0 ≤ col ∧ col < b.cols) {i : Nat}
    (hi : i < (b.disks.getD col.toNat []).length)
    (hiempty : (b.disks.getD col.toNat []).getD i none = none)
    (hiabove : ∀ j, i < j → j < (b.disks.getD col.toNat []).length →
      ((b.disks.getD col.toNat []).getD j none).isSome) :
    b.drop_disk col disk =
      (Board.mk b.rows b.cols
        (b.disks.set col.toNat ((b.disks.getD col.toNat []).set i (some disk))),
        some (i : Int)) := by
  have hex : ∃ x, x ∈ (b.disks.getD col.toNat []).reverse ∧ x.isNone = true := by
    refine ⟨(b.disks.getD col.toNat []).getD i none, ?_, ?_⟩
    · rw [List.mem_reverse, getD_in_range none hi]
      exact List.get_mem _ _ _
    · rw [hiempty]
      rfl
  have hf := List.findIdx?_eq_some_of_exists (p := fun d => d.isNone) hex
  obtain ⟨hlt, hemp1, hab1⟩ := revScan_spec hf
  rcases Nat.lt_trichotomy
    ((b.disks.getD col.toNat []).length -
      (b.disks.getD col.toNat []).reverse.findIdx (fun d => d.isNone) - 1) i with hc | hc | hc
  · exfalso
    have hcontra := hab1 i hc hi
    rw [hiempty] at hcontra
    simp at hcontra
  · rw [drop_disk_eq_of_findIdx _ hg hf, hc]
  · exfalso
    have hcontra := hiabove _ hc (by omega)
    rw [hemp1] at hcontra
    simp at hcontra

/-- Two consecutive drops into an all-empty column of a well-shaped board land
at rows `rows - 1` and then `rows - 2`. -/
theorem drop_twice_empty_column {b : Board} {col : Int} (d1 d2 : Disk)
    (hs : b.Shape) (h2 : 2 ≤ b.rows) (hc0 : 0 ≤ col) (hclt : col < b.cols)
    (hempty : ∀ cell ∈ b.disks.getD col.toNat [], cell = none) :
    (b.drop_disk col d1).2 = some (b.rows - 1) ∧
    (((b.drop_disk col d1).1).drop_disk col d2).2 = some (b.rows - 2) := by
  have hg : 0 ≤ col ∧ col < b.cols := ⟨hc0, hclt⟩
  have hcl : col.toNat < b.disks.length := col_index_lt hs hc0 hclt
  have hclen : (b.disks.getD col.toNat []).length = b.rows.toNat := by
    rw [getD_in_range [] hcl]
    exact hs.2.2.2 _ (List.get_mem _ _ _)
  have hcells : ∀ j, j < (b.disks.getD col.toNat []).length →
      (b.disks.getD col.toNat []).getD j none = none := by
    intro j hj
    rw [getD_in_range none hj]
    exact hempty _ (List.get_mem _ _ _)
  have hdrop1 := drop_disk_landing (b := b) d1 hg
    (i := (b.disks.getD col.toNat []).length - 1) (by omega)
    (hcells _ (by omega)) (fun j hj1 hj2 => absurd hj2 (by omega))
  have hfst : (b.drop_disk col d1).1 =
      Board.mk b.rows b.cols
        (b.disks.set col.toNat ((b.disks.getD col.toNat []).set
          ((b.disks.getD col.toNat []).length - 1) (some d1))) := by
    rw [hdrop1]
  have hC1 : (b.disks.set col.toNat ((b.disks.getD col.toNat []).set
      ((b.disks.getD col.toNat []).length - 1) (some d1))).getD col.toNat [] =
      (b.disks.getD col.toNat []).set
        ((b.disks.getD col.toNat []).length - 1) (some d1) :=
    getD_set_eq hcl
  constructor
  · rw [hdrop1]
    exact congrArg some (by omega)
  · rw [hfst]
    have hdrop2 := drop_disk_landing
      (b := Board.mk b.rows b.cols
        (b.disks.set col.toNat ((b.disks.getD col.toNat []).set
          ((b.disks.getD col.toNat []).length - 1) (some d1))))
      d2 hg (i := (b.disks.getD col.toNat []).length - 2)
      (by
        show (b.disks.getD col.toNat []).length - 2 <
          ((b.disks.set col.toNat ((b.disks.getD col.toNat []).set
            ((b.disks.getD col.toNat []).length - 1) (some d1))).getD col.toNat []).length
        rw [hC1, List.length_set]
        omega)
      (by
        show ((b.disks.set col.toNat ((b.disks.getD col.toNat []).set
          ((b.disks.getD col.toNat []).length - 1) (some d1))).getD
            col.toNat []).getD ((b.disks.getD col.toNat []).length - 2) none = none
        rw [hC1, getD_set_ne (by omega)]
        exact hcells _ (by omega))
      (by
        intro j hj1 hj2
        rw [show ((b.disks.set col.toNat ((b.disks.getD col.toNat []).set
          ((b.disks.getD col.toNat []).length - 1) (some d1))).getD col.toNat []) =
            (b.disks.getD col.toNat []).set
              ((b.disks.getD col.toNat []).length - 1) (some d1) from hC1] at hj2 ⊢
        rw [List.length_set] at hj2
        have hj : j = (b.disks.getD col.toNat []).length - 1 := by omega
        rw [hj, getD_set_eq (by omega)]
        rfl)
    rw [hdrop2]
    exact congrArg some (by omega)

/-- Claim C1: for every board and column index, `Board::drop_disk(col, disk)`
returns `none` exactly when `col` is outside `[0, cols)` or the column is full,
leaving the board unchanged in that case; otherwise it places `disk` at the
first empty slot found scanning the column from row index `rows - 1` upward and
returns that row index — in particular, two consecutive drops into an empty
column of height `rows` land at `rows - 1` and then `rows - 2`. -/
theorem drop_disk_spec :
    (∀ (b : Board) (col : Int) (disk : Disk),
      ((b.drop_disk col disk).2 = none ↔
        ¬(0 ≤ col ∧ col < b.cols) ∨
          ∀ cell ∈ b.disks.getD col.toNat [], cell.isSome) ∧
      ((b.drop_disk col disk).2 = none → (b.drop_disk col disk).1 = b) ∧
      (∀ r : Int, (b.drop_disk col disk).2 = some r →
        (0 ≤ col ∧ col < b.cols) ∧
        ∃ i : Nat, r = (i : Int) ∧ i < (b.disks.getD col.toNat []).length ∧
          (b.disks.getD col.toNat []).getD i none = none ∧
          (∀ j, i < j → j < (b.disks.getD col.toNat []).length →
            ((b.disks.getD col.toNat []).getD j none).isSome) ∧
          (b.drop_disk col disk).1 =
            Board.mk b.rows b.cols
              (b.disks.set col.toNat
                ((b.disks.getD col.toNat []).set i (some disk))))) ∧
    (∀ (b : Board) (col : Int) (d1 d2 : Disk), b.Shape → 2 ≤ b.rows →
      0 ≤ col → col < b.cols →
      (∀ cell ∈ b.disks.getD col.toNat [], cell = none) →
      (b.drop_disk col d1).2 = some (b.rows - 1) ∧
      (((b.drop_disk col d1).1).drop_disk col d2).2 = some (b.rows - 2)) :=
  ⟨fun b col disk =>
    ⟨drop_disk_none_iff b col disk, drop_disk_none_eq b col disk,
      fun _ h => drop_disk_some_spec h⟩,
    fun _ _ d1 d2 hs h2 hc0 hclt hempty =>
      drop_twice_empty_column d1 d2 hs h2 hc0 hclt hempty⟩

/-- Witness for C1: on a fresh 2-row, 1-column board, the first two drops into
column 0 land at rows 1 and 0, and a drop into the invalid column 5 fails. -/
theorem drop_disk_spec_witness :
    ((Board.new 2 1).drop_disk 0 Disk.red).2 = some 1 ∧
    (((Board.new 2 1).drop_disk 0 Disk.red).1.drop_disk 0 Disk.blue).2 = some 0 ∧
    ((Board.new 2 1).drop_disk 5 Disk.red).2 = none := by
  have h2 := drop_disk_spec.2 (Board.new 2 1) 0 Disk.red Disk.blue
    (by decide) (by decide) (by decide) (by decide) (by decide)
  refine ⟨?_, ?_, ?_⟩
  · have := h2.1
    norm_num at this
    exact this
  · have := h2.2
    norm_num at this
    exact this
  · exact (drop_disk_spec.1 (Board.new 2 1) 5 Disk.red).1.mpr (Or.inl (by decide))

/-! ## Round-trip of the save encoding -/

/-- Decoding one encoded cell consumes exactly its tokens. -/
theorem readCell_encodeCell (c : Option Disk) (rest : List Tok) :
    readCell (encodeCell c ++ rest) = some (c, rest) := by
  rcases c with _ | d
  · rfl
  · cases d <;> rfl

/-- Decoding an encoded cell sequence of known length recovers it. -/
theorem readCells_encode (cs : List (Option Disk)) (rest : List Tok) :
    readCells cs.length (cs.flatMap encodeCell ++ rest) = some (cs, rest) := by
  induction cs generalizing rest with
  | nil => rfl
  | cons c cs ih =>
    simp [readCells, List.flatMap_cons, List.append_assoc, readCell_encodeCell, ih]

/-- Decoding an encoded column recovers it. -/
theorem readColumn_encodeColumn (c : List (Option Disk)) (rest : List Tok) :
    readColumn (encodeColumn c ++ rest) = some (c, rest) := by
  simp [encodeColumn, readColumn, Int.toNat_natCast, readCells_encode]

/-- Decoding an encoded column sequence of known length recovers it. -/
theorem readColumns_encode (cs : List (List (Option Disk))) (rest : List Tok) :
    readColumns cs.length (cs.flatMap encodeColumn ++ rest) = some (cs, rest) := by
  induction cs generalizing rest with
  | nil => rfl
  | cons c cs ih =>
    simp [readColumns, List.flatMap_cons, List.append_assoc, readColumn_encodeColumn, ih]

/-- Decoding an encoded board recovers it, dimensions and cells alike. -/
theorem readBoard_encodeBoard (b : Board) (rest : List Tok) :
    readBoard (encodeBoard b ++ rest) = some (b, rest) := by
  simp [encodeBoard, readBoard, Int.toNat_natCast, readColumns_encode]

/-- Decoding an encoded turn marker recovers it. -/
theorem readTurn_encodeTurn (t : Turn) (rest : List Tok) :
    readTurn (encodeTurn t ++ rest) = some (t, rest) := by
  cases t <;> rfl

/-- Decoding an encoded history entry recovers it. -/
theorem readMove_encodeMove (m : Int × Turn) (rest : List Tok) :
    readMove (encodeMove m ++ rest) = some (m, rest) := by
  obtain ⟨c, t⟩ := m
  simp [encodeMove, readMove, readTurn_encodeTurn]

/-- Decoding an encoded history entry sequence of known length recovers it. -/
theorem readMoves_encode (ms : List (Int × Turn)) (rest : List Tok) :
    readMoves ms.length (ms.flatMap encodeMove ++ rest) = some (ms, rest) := by
  induction ms generalizing rest with
  | nil => rfl
  | cons m ms ih =>
    simp [readMoves, List.flatMap_cons, List.append_assoc, readMove_encodeMove, ih]

/-- Decoding an encoded move history recovers it. -/
theorem readHistory_encodeHistory (h : MoveHistory) (rest : List Tok) :
    readHistory (encodeHistory h ++ rest) = some (h, rest) := by
  simp [encodeHistory, readHistory, Int.toNat_natCast, readMoves_encode]

/-- The modelled save encoding round-trips losslessly on every `GameData`. -/
theorem decode_encode (g : GameData) : decodeGameData (encodeGameData g) = some g := by
  have hh : readHistory (encodeHistory g.history) = some (g.history, []) := by
    simpa using readHistory_encodeHistory g.history []
  simp [decodeGameData, encodeGameData, List.append_assoc, readBoard_encodeBoard,
    readTurn_encodeTurn, hh]

/-- Claim C7: for every reachable game state, serializing the `GameData` triple
(board, turn, history) and deserializing it reproduces a board with identical
dimensions and per-cell contents, an identical turn and an identical move
history — the save encoding round-trips losslessly. -/
theorem save_load_roundtrip (s : Session) (h : Reachable s) :
    decodeGameData (encodeGameData
      { board := s.board, turn := s.turn, history := s.history }) =
      some { board := s.board, turn := s.turn, history := s.history } :=
  decode_encode _

/-- Witness for C7: the round trip evaluated on the state reached from a fresh
2-by-2 game by drops into columns 0 and 1. -/
theorem save_load_roundtrip_witness :
    decodeGameData (encodeGameData
      (GameData.mk (applyDrops (Session.new 2 2) [0, 1]).board
        (applyDrops (Session.new 2 2) [0, 1]).turn
        (applyDrops (Session.new 2 2) [0, 1]).history)) =
      some (GameData.mk (applyDrops (Session.new 2 2) [0, 1]).board
        (applyDrops (Session.new 2 2) [0, 1]).turn
        (applyDrops (Session.new 2 2) [0, 1]).history) :=
  save_load_roundtrip _ ⟨2, 2, [0, 1], rfl⟩

/-! ## The post-Load redraw loop -/

/-- A fold in the `Option` monad fails when some list element fails on every
accumulator. -/
theorem foldlM_eq_none {α β : Type} {f : β → α → Option β}
    {l : List α} {x : α} (hx : x ∈ l) (hfail : ∀ acc, f acc x = none) :
    ∀ init, l.foldlM f init = none := by
  induction l with
  | nil => cases hx
  | cons y l ih =>
    intro init
    rw [List.foldlM_cons]
    rcases hy : f init y with _ | acc
    · rfl
    · rcases List.mem_cons.mp hx with rfl | hx2
      · rw [hfail init] at hy
        cases hy
      · simpa using ih hx2 acc

/-- A fold in the `Option` monad succeeds when every step succeeds. -/
theorem foldlM_isSome {α β : Type} {f : β → α → Option β} {l : List α}
    (hok : ∀ acc x, x ∈ l → (f acc x).isSome) :
    ∀ init, (l.foldlM f init).isSome := by
  induction l with
  | nil =>
    intro init
    rfl
  | cons y l ih =>
    intro init
    rw [List.foldlM_cons]
    rcases hy : f init y with _ | acc
    · have hcon := hok init y (by simp)
      rw [hy] at hcon
      cases hcon
    · simpa using ih (fun acc x hx => hok acc x (by simp [hx])) acc

/-- An invariant preserved by each step of an `Option` fold holds for the
result. -/
theorem foldlM_invariant {α β : Type} {P : β → Prop} {f : β → α → Option β}
    {l : List α} (hstep : ∀ acc x c, x ∈ l → f acc x = some c → P acc → P c) :
    ∀ init, P init → ∀ c, l.foldlM f init = some c → P c := by
  induction l with
  | nil =>
    intro init hinit c hc
    cases hc
    exact hinit
  | cons y l ih =>
    intro init hinit c hc
    rw [List.foldlM_cons] at hc
    rcases hy : f init y with _ | acc
    · rw [hy] at hc
      cases hc
    · rw [hy] at hc
      simp only [bind, Option.bind] at hc
      exact ih (fun a x c2 hx => hstep a x c2 (by simp [hx]))
        acc (hstep init y acc (by simp) hy hinit) c hc

/-- Claim C9: the post-Load disk redraw loop iterates its inner (column) index
over `0..board.rows` instead of `0..board.cols`.  Hence for every well-shaped
board with `rows > cols` the access `board.disks[col]` goes out of bounds — a
panic, modelled as `none` — and for every well-shaped board with `cols > rows`
the loop completes but only ever draws disks of columns with index below
`rows`; columns at index `rows` and beyond are never redrawn. -/
theorem redraw_loop_column_bug (b : Board) (hs : b.Shape) :
    (b.cols < b.rows → redrawDisks b = none) ∧
    (b.rows < b.cols → ∃ l, redrawDisks b = some l ∧ ∀ e ∈ l, e.1 < b.rows) := by
  have h0r := hs.1
  have h0c := hs.2.1
  constructor
  · intro hlt
    rw [redrawDisks]
    apply foldlM_eq_none (x := (0, b.cols.toNat))
    · rw [List.mem_flatMap]
      refine ⟨0, by rw [List.mem_range]; omega, ?_⟩
      rw [List.mem_map]
      exact ⟨b.cols.toNat, by rw [List.mem_range]; omega, rfl⟩
    · intro acc
      have hnone : b.disks[b.cols.toNat]? = none :=
        List.getElem?_eq_none (le_of_eq hs.2.2.1)
      unfold redrawStep
      rw [show ((0, b.cols.toNat) : Nat × Nat).2 = b.cols.toNat from rfl, hnone]
  · intro hlt
    have hbounds : ∀ rc : Nat × Nat,
        rc ∈ ((List.range b.rows.toNat).flatMap fun row =>
          (List.range b.rows.toNat).map fun col => (row, col)) →
        rc.1 < b.rows.toNat ∧ rc.2 < b.rows.toNat := by
      intro rc hmem
      rw [List.mem_flatMap] at hmem
      obtain ⟨row0, hrow0, hmem⟩ := hmem
      rw [List.mem_map] at hmem
      obtain ⟨col0, hcol0, heq⟩ := hmem
      rw [List.mem_range] at hrow0 hcol0
      constructor
      · rw [← heq]
        exact hrow0
      · rw [← heq]
        exact hcol0
    have hsome := foldlM_isSome (f := redrawStep b)
      (l := (List.range b.rows.toNat).flatMap fun row =>
        (List.range b.rows.toNat).map fun col => (row, col))
      (by
        intro acc rc hmem
        obtain ⟨h1, h2⟩ := hbounds rc hmem
        have hcl : rc.2 < b.disks.length := by rw [hs.2.2.1]; omega
        have hcolget : b.disks[rc.2]? = some (b.disks.get ⟨rc.2, hcl⟩) :=
          List.getElem?_eq_getElem hcl
        have hrowlt : rc.1 < (b.disks.get ⟨rc.2, hcl⟩).length := by
          rw [hs.2.2.2 _ (List.get_mem _ _ _)]
          omega
        have hrowget : (b.disks.get ⟨rc.2, hcl⟩)[rc.1]? =
            some ((b.disks.get ⟨rc.2, hcl⟩).get ⟨rc.1, hrowlt⟩) :=
          List.getElem?_eq_getElem hrowlt
        unfold redrawStep
        split
        · next heq =>
          rw [hcolget] at heq
          cases heq
        · next column heq =>
          rw [hcolget] at heq
          injection heq with heq
          subst heq
          split
          · next heq2 =>
            rw [hrowget] at heq2
            cases heq2
          · next disk heq2 => rfl
          · next heq2 => rfl)
      []
    rw [Option.isSome_iff_exists] at hsome
    obtain ⟨l, hl⟩ := hsome
    refine ⟨l, by rw [redrawDisks]; exact hl, ?_⟩
    refine foldlM_invariant (P := fun acc => ∀ e ∈ acc, e.1 < b.rows) ?_ [] (by simp) l hl
    intro acc rc c hmem hstep hacc
    obtain ⟨h1, h2⟩ := hbounds rc hmem
    unfold redrawStep at hstep
    split at hstep
    · cases hstep
    · split at hstep
      · cases hstep
      · next disk heq2 =>
        injection hstep with hstep
        subst hstep
        intro e he
        rcases List.mem_append.mp he with he | he
        · exact hacc e he
        · rw [List.mem_singleton] at he
          subst he
          show (rc.2 : Int) < b.rows
          omega
      · injection hstep with hstep
        subst hstep
        exact hacc

/-- Witness for C9: the redraw loop panics on a freshly shaped 2-row, 1-column
board, and on a 1-row, 2-column board it completes while drawing nothing at
column index 1 or beyond. -/
theorem redraw_loop_column_bug_witness :
    redrawDisks (Board.new 2 1) = none ∧
    ∃ l, redrawDisks (Board.new 1 2) = some l ∧ ∀ e ∈ l, e.1 < (Board.new 1 2).rows := by
  constructor
  · exact (redraw_loop_column_bug (Board.new 2 1) (by decide)).1 (by decide)
  · exact (redraw_loop_column_bug (Board.new 1 2) (by decide)).2 (by decide)

/-! ## The direction scan of `check_for_win` -/

/-- The scan count grows by at most one per step of fuel. -/
theorem scanDir_le (b : Board) (disk : Disk) (dr dc : Int) :
    ∀ (n : Nat) (row col : Int) (cnt : Nat),
      (b.scanDir disk dr dc n row col cnt).2.2 ≤ cnt + n := by
  intro n
  induction n with
  | zero =>
    intro row col cnt
    exact Nat.le_refl _
  | succ n ih =>
    intro row col cnt
    simp only [Board.scanDir]
    split
    · split
      · split
        · exact le_trans (ih _ _ _) (by omega)
        · show cnt ≤ cnt + (n + 1)
          omega
      · show cnt ≤ cnt + (n + 1)
        omega
    · exact le_trans (ih _ _ _) (by omega)

/-- When every remaining step is out of bounds, the scan neither breaks nor
counts: it keeps stepping to the end with the count unchanged. -/
theorem scanDir_stuck (b : Board) (disk : Disk) (dr dc : Int) :
    ∀ (n : Nat) (row col : Int) (cnt : Nat),
      (∀ m : Nat, 1 ≤ m → m ≤ n →
        ¬(0 ≤ row + m * dr ∧ row + m * dr < b.rows ∧
          0 ≤ col + m * dc ∧ col + m * dc < b.cols)) →
      b.scanDir disk dr dc n row col cnt = (row + n * dr, col + n * dc, cnt) := by
  intro n
  induction n with
  | zero =>
    intro row col cnt hout
    simp [Board.scanDir]
  | succ n ih =>
    intro row col cnt hout
    rw [show row + ((n + 1 : Nat) : Int) * dr = (row + dr) + (n : Int) * dr by
        push_cast; ring,
      show col + ((n + 1 : Nat) : Int) * dc = (col + dc) + (n : Int) * dc by
        push_cast; ring]
    simp only [Board.scanDir]
    rw [if_neg (by simpa using hout 1 (by omega) (by omega))]
    apply ih
    intro m h1 h2
    have hm := hout (m + 1) (by omega) (by omega)
    intro hcon
    apply hm
    constructor
    · have he : row + ((m + 1 : Nat) : Int) * dr = row + dr + (m : Int) * dr := by
        push_cast; ring
      rw [he]
      exact hcon.1
    constructor
    · have he : row + ((m + 1 : Nat) : Int) * dr = row + dr + (m : Int) * dr := by
        push_cast; ring
      rw [he]
      exact hcon.2.1
    constructor
    · have he : col + ((m + 1 : Nat) : Int) * dc = col + dc + (m : Int) * dc := by
        push_cast; ring
      rw [he]
      exact hcon.2.2.1
    · have he : col + ((m + 1 : Nat) : Int) * dc = col + dc + (m : Int) * dc := by
        push_cast; ring
      rw [he]
      exact hcon.2.2.2

/-- When every remaining step is in bounds and matches the disk, the scan counts
them all and ends at the far endpoint. -/
theorem scanDir_complete (b : Board) (disk : Disk) (dr dc : Int) :
    ∀ (n : Nat) (row col : Int) (cnt : Nat),
      (∀ m : Nat, 1 ≤ m → m ≤ n →
        (0 ≤ row + m * dr ∧ row + m * dr < b.rows ∧
         0 ≤ col + m * dc ∧ col + m * dc < b.cols) ∧
        b.cell (row + m * dr) (col + m * dc) = some disk) →
      b.scanDir disk dr dc n row col cnt =
        (row + n * dr, col + n * dc, cnt + n) := by
  intro n
  induction n with
  | zero =>
    intro row col cnt hin
    simp [Board.scanDir]
  | succ n ih =>
    intro row col cnt hin
    rw [show row + ((n + 1 : Nat) : Int) * dr = (row + dr) + (n : Int) * dr by
        push_cast; ring,
      show col + ((n + 1 : Nat) : Int) * dc = (col + dc) + (n : Int) * dc by
        push_cast; ring,
      show cnt + (n + 1) = (cnt + 1) + n by omega]
    simp only [Board.scanDir]
    have h1 := hin 1 (Nat.le_refl 1) (by omega)
    have hb : 0 ≤ row + dr ∧ row + dr < b.rows ∧ 0 ≤ col + dc ∧ col + dc < b.cols := by
      simpa using h1.1
    have hcell : b.cell (row + dr) (col + dc) = some disk := by
      simpa using h1.2
    rw [if_pos hb]
    simp only [hcell, if_true]
    apply ih
    intro m hm1 hm2
    have hm := hin (m + 1) (by omega) (by omega)
    constructor
    · constructor
      · have he : row + ((m + 1 : Nat) : Int) * dr = row + dr + (m : Int) * dr := by
          push_cast; ring
        rw [← he]
        exact hm.1.1
      constructor
      · have he : row + ((m + 1 : Nat) : Int) * dr = row + dr + (m : Int) * dr := by
          push_cast; ring
        rw [← he]
        exact hm.1.2.1
      constructor
      · have he : col + ((m + 1 : Nat) : Int) * dc = col + dc + (m : Int) * dc := by
          push_cast; ring
        rw [← he]
        exact hm.1.2.2.1
      · have he : col + ((m + 1 : Nat) : Int) * dc = col + dc + (m : Int) * dc := by
          push_cast; ring
        rw [← he]
        exact hm.1.2.2.2
    · have her : row + ((m + 1 : Nat) : Int) * dr = row + dr + (m : Int) * dr := by
        push_cast; ring
      have hec : col + ((m + 1 : Nat) : Int) * dc = col + dc + (m : Int) * dc := by
        push_cast; ring
      rw [← her, ← hec]
      exact hm.2

/-- Each direction delta of `check_for_win` is -1, 0 or 1. -/
theorem directions_deltas :
    ∀ p ∈ directions, (p.1 = -1 ∨ p.1 = 0 ∨ p.1 = 1) ∧
      (p.2 = -1 ∨ p.2 = 0 ∨ p.2 = 1) := by
  decide

/-- If the scan count reaches its maximum, every step was in bounds and matched
the disk: started inside the board with unit-step deltas, the scan can never
re-enter the board after leaving it, so the missing out-of-bounds `break` of the
source loop cannot manufacture extra counts. -/
theorem scanDir_count_max (b : Board) (disk : Disk) {dr dc : Int}
    (hdr : dr = -1 ∨ dr = 0 ∨ dr = 1) (hdc : dc = -1 ∨ dc = 0 ∨ dc = 1) :
    ∀ (n : Nat) (row col : Int) (cnt : Nat),
      (0 ≤ row ∧ row < b.rows ∧ 0 ≤ col ∧ col < b.cols) →
      (b.scanDir disk dr dc n row col cnt).2.2 = cnt + n →
      ∀ m : Nat, 1 ≤ m → m ≤ n →
        (0 ≤ row + m * dr ∧ row + m * dr < b.rows ∧
         0 ≤ col + m * dc ∧ col + m * dc < b.cols) ∧
        b.cell (row + m * dr) (col + m * dc) = some disk := by
  intro n
  induction n with
  | zero =>
    intro row col cnt _ _ m h1 h2
    omega
  | succ n ih =>
    intro row col cnt hin hcount m h1 h2
    simp only [Board.scanDir] at hcount
    by_cases hb : 0 ≤ row + dr ∧ row + dr < b.rows ∧ 0 ≤ col + dc ∧ col + dc < b.cols
    · rw [if_pos hb] at hcount
      rcases hcell : b.cell (row + dr) (col + dc) with _ | disk2
      · simp only [hcell] at hcount
        exfalso
        simp at hcount
      · simp only [hcell] at hcount
        by_cases hdisk : disk2 = disk
        · subst hdisk
          rw [if_pos rfl, show cnt + (n + 1) = (cnt + 1) + n by omega] at hcount
          have hrec := ih (row + dr) (col + dc) (cnt + 1) hb hcount
          obtain ⟨m', rfl⟩ : ∃ m', m = m' + 1 := ⟨m - 1, by omega⟩
          have her : row + ((m' + 1 : Nat) : Int) * dr = row + dr + (m' : Int) * dr := by
            push_cast; ring
          have hec : col + ((m' + 1 : Nat) : Int) * dc = col + dc + (m' : Int) * dc := by
            push_cast; ring
          rw [her, hec]
          rcases Nat.eq_zero_or_pos m' with rfl | hm'
          · simpa using ⟨hb, hcell⟩
          · exact hrec m' hm' (by omega)
        · rw [if_neg hdisk] at hcount
          exfalso
          simp at hcount
    · rw [if_neg hb] at hcount
      exfalso
      have hstuck : ∀ m2 : Nat, 1 ≤ m2 → m2 ≤ n →
          ¬(0 ≤ (row + dr) + m2 * dr ∧ (row + dr) + m2 * dr < b.rows ∧
            0 ≤ (col + dc) + m2 * dc ∧ (col + dc) + m2 * dc < b.cols) := by
        intro m2 _ _
        rcases hdr with rfl | rfl | rfl <;> rcases hdc with rfl | rfl | rfl <;> omega
      rw [scanDir_stuck b disk dr dc n (row + dr) (col + dc) cnt hstuck] at hcount
      simp at hcount

/-- `check_for_win` succeeds from an occupied in-bounds cell exactly when a win
line in one of the eight scanned directions starts there. -/
theorem check_for_win_isSome_iff {b : Board} {r c : Int} {disk : Disk}
    (hin : 0 ≤ r ∧ r < b.rows ∧ 0 ≤ c ∧ c < b.cols)
    (hcell : b.cell r c = some disk) :
    (b.check_for_win r c disk).isSome ↔
      ∃ dr dc, (dr, dc) ∈ directions ∧ b.LineFrom disk r c dr dc := by
  rw [Board.check_for_win, List.findSome?_isSome_iff]
  constructor
  · rintro ⟨⟨dr, dc⟩, hmem, hsome⟩
    refine ⟨dr, dc, hmem, ?_⟩
    dsimp only at hsome
    by_cases h4 : 4 ≤ (b.scanDir disk dr dc 3 r c 1).2.2
    · have hle := scanDir_le b disk dr dc 3 r c 1
      have heq : (b.scanDir disk dr dc 3 r c 1).2.2 = 1 + 3 := by omega
      obtain ⟨hd1, hd2⟩ := directions_deltas _ hmem
      have hmax := scanDir_count_max b disk hd1 hd2 3 r c 1 hin heq
      intro k hk
      interval_cases k
      · constructor
        · show b.InBounds (r + 0 * dr) (c + 0 * dc)
          simpa [Board.InBounds] using hin
        · simpa using hcell
      · exact hmax 1 (by omega) (by omega)
      · exact hmax 2 (by omega) (by omega)
      · exact hmax 3 (by omega) (by omega)
    · rw [if_neg h4] at hsome
      simp at hsome
  · rintro ⟨dr, dc, hmem, hline⟩
    refine ⟨(dr, dc), hmem, ?_⟩
    dsimp only
    have hsteps : ∀ m : Nat, 1 ≤ m → m ≤ 3 →
        (0 ≤ r + m * dr ∧ r + m * dr < b.rows ∧
         0 ≤ c + m * dc ∧ c + m * dc < b.cols) ∧
        b.cell (r + m * dr) (c + m * dc) = some disk := by
      intro m h1 h3
      exact hline m (by omega)
    rw [scanDir_complete b disk dr dc 3 r c 1 hsteps]
    simp

/-- Claim C3: for every board with no monochromatic contiguous line of length 4
along any of the eight scanned directions — in particular a board whose longest
monochromatic line has length at most 3, or one whose only length-4 lines mix
both colors — `check_for_wins` returns `none`: no win is reported, despite the
scan loop of `check_for_win` not breaking when a step leaves the board. -/
theorem no_win_reported_without_mono_line (b : Board)
    (hnoline : ∀ (disk : Disk) (r c dr dc : Int), (dr, dc) ∈ directions →
      ¬b.LineFrom disk r c dr dc) :
    b.check_for_wins = none := by
  rw [Board.check_for_wins, List.findSome?_eq_none_iff]
  intro rowN hrow
  rw [List.findSome?_eq_none_iff]
  intro colN hcol
  rw [List.mem_range] at hrow hcol
  rcases hcell : b.cell (rowN : Int) (colN : Int) with _ | disk
  · simp only [hcell]
  · simp only [hcell]
    have hwin : b.check_for_win (rowN : Int) (colN : Int) disk = none := by
      rcases hw : b.check_for_win (rowN : Int) (colN : Int) disk with _ | delta
      · rfl
      · exfalso
        have hin : 0 ≤ (rowN : Int) ∧ (rowN : Int) < b.rows ∧
            0 ≤ (colN : Int) ∧ (colN : Int) < b.cols :=
          ⟨by omega, by omega, by omega, by omega⟩
        have hiff := check_for_win_isSome_iff hin hcell
        rw [hw] at hiff
        obtain ⟨dr, dc, hmem, hline⟩ := hiff.mp rfl
        exact hnoline disk _ _ dr dc hmem hline
    simp only [hwin]

/-- Witness for C3: no win is reported on a 1-by-4 board holding three red disks
and an empty cell, nor on a 1-by-4 board whose full row mixes red and blue. -/
theorem no_win_reported_without_mono_line_witness :
    (Board.mk 1 4 [[some Disk.red], [some Disk.red],
      [some Disk.red], [none]]).check_for_wins = none ∧
    (Board.mk 1 4 [[some Disk.red], [some Disk.red],
      [some Disk.blue], [some Disk.red]]).check_for_wins = none := by
  constructor
  · apply no_win_reported_without_mono_line
    intro disk r c dr dc hmem hline
    obtain ⟨hb0, hc0⟩ := hline 0 (by omega)
    obtain ⟨hb3, hc3⟩ := hline 3 (by omega)
    simp only [Board.InBounds] at hb0 hb3
    obtain ⟨hd1, hd2⟩ := directions_deltas _ hmem
    have hdr : dr = 0 := by omega
    subst hdr
    rcases hd2 with rfl | rfl | rfl
    · have hr : r = 0 := by omega
      have hc : c = 3 := by omega
      subst hr
      subst hc
      norm_num at hc0
      rw [show (Board.mk 1 4 [[some Disk.red], [some Disk.red],
        [some Disk.red], [none]]).cell 0 3 = none from by decide] at hc0
      cases hc0
    · exact absurd hmem (by decide)
    · have hr : r = 0 := by omega
      have hc : c = 0 := by omega
      subst hr
      subst hc
      norm_num at hc3
      rw [show (Board.mk 1 4 [[some Disk.red], [some Disk.red],
        [some Disk.red], [none]]).cell 0 3 = none from by decide] at hc3
      cases hc3
  · apply no_win_reported_without_mono_line
    intro disk r c dr dc hmem hline
    obtain ⟨hb0, hc0⟩ := hline 0 (by omega)
    obtain ⟨hb1, hc1⟩ := hline 1 (by omega)
    obtain ⟨hb2, hc2⟩ := hline 2 (by omega)
    obtain ⟨hb3, hc3⟩ := hline 3 (by omega)
    simp only [Board.InBounds] at hb0 hb3
    obtain ⟨hd1, hd2⟩ := directions_deltas _ hmem
    have hdr : dr = 0 := by omega
    subst hdr
    rcases hd2 with rfl | rfl | rfl
    · have hr : r = 0 := by omega
      have hc : c = 3 := by omega
      subst hr
      subst hc
      norm_num at hc0 hc1
      cases disk
      · exact absurd hc1 (by decide)
      · exact absurd hc0 (by decide)
    · exact absurd hmem (by decide)
    · have hr : r = 0 := by omega
      have hc : c = 0 := by omega
      subst hr
      subst hc
      norm_num at hc0 hc2
      cases disk
      · exact absurd hc2 (by decide)
      · exact absurd hc0 (by decide)

/-- Constructing a `findSome?` result over `List.range`: the first index whose
value is `some` determines the result. -/
theorem findSome?_range_eq_some {β : Type} {f : Nat → Option β} {n i : Nat} {v : β}
    (hi : i < n) (hfi : f i = some v) (hprev : ∀ j, j < i → f j = none) :
    (List.range n).findSome? f = some v := by
  induction n with
  | zero => omega
  | succ n ih =>
    rw [List.range_succ, List.findSome?_append]
    rcases Nat.lt_or_ge i n with h | h
    · rw [ih h]
      rfl
    · have hieq : i = n := by omega
      subst hieq
      have hnone : (List.range i).findSome? f = none := by
        rw [List.findSome?_eq_none_iff]
        intro x hx
        rw [List.mem_range] at hx
        exact hprev x hx
      rw [hnone]
      simp [hfi]

/-- Assembling a `LineFrom` from its start cell and its three scan steps. -/
theorem lineFrom_of_steps {b : Board} {disk : Disk} {r c dr dc : Int}
    (h0in : b.InBounds r c) (h0cell : b.cell r c = some disk)
    (hsteps : ∀ m : Nat, 1 ≤ m → m ≤ 3 →
      (0 ≤ r + m * dr ∧ r + m * dr < b.rows ∧
       0 ≤ c + m * dc ∧ c + m * dc < b.cols) ∧
      b.cell (r + m * dr) (c + m * dc) = some disk) :
    b.LineFrom disk r c dr dc := by
  intro k hk
  rcases Nat.eq_zero_or_pos k with rfl | hk1
  · constructor
    · show b.InBounds (r + ((0 : Nat) : Int) * dr) (c + ((0 : Nat) : Int) * dc)
      norm_num
      exact h0in
    · have he1 : r + ((0 : Nat) : Int) * dr = r := by norm_num
      have he2 : c + ((0 : Nat) : Int) * dc = c := by norm_num
      rw [he1, he2]
      exact h0cell
  · exact hsteps k hk1 (by omega)

/-- Claim C2: on a board whose only win line is a single horizontal run of four
`d`-colored disks at `(r0, c0) .. (r0, c0+3)` (formalized: the run is a
`LineFrom` in direction right, and every win line in any of the eight scanned
directions has all its cells inside that run), `check_for_wins` returns `d`'s
turn with endpoints `(r0, c0)` and `(r0, c0+3)`: the row-major cell scan first
succeeds at `(r0, c0)`, where the directions are tried in the fixed source
order down, up, right, left, down-right, up-left, down-left, up-right, and
`right` — the first direction reaching count 4 — fixes the far endpoint. -/
theorem check_for_wins_unique_horizontal_run (b : Board) (d : Disk) (r0 c0 : Int)
    (hrun : b.LineFrom d r0 c0 0 1)
    (honly : ∀ (d2 : Disk) (r c dr dc : Int), (dr, dc) ∈ directions →
      b.LineFrom d2 r c dr dc →
      ∀ k : Nat, k < 4 → ∃ j : Nat, j < 4 ∧
        r + k * dr = r0 ∧ c + k * dc = c0 + j) :
    b.check_for_wins = some (d.to_turn, (r0, c0), (r0, c0 + 3)) := by
  have h00 := hrun 0 (by omega)
  have h03 := hrun 3 (by omega)
  norm_num at h00 h03
  obtain ⟨h00in, h00cell⟩ := h00
  obtain ⟨h03in, h03cell⟩ := h03
  obtain ⟨hr00, hr0lt, hc00, hc0lt⟩ := h00in
  obtain ⟨hr03, hr3lt, hc03, hc3lt⟩ := h03in
  have hnowin : ∀ (rI cI : Int) (d2 : Disk), 0 ≤ rI → rI < b.rows →
      0 ≤ cI → cI < b.cols → (rI < r0 ∨ (rI = r0 ∧ cI < c0)) →
      b.cell rI cI = some d2 → b.check_for_win rI cI d2 = none := by
    intro rI cI d2 h1 h2 h3 h4 hearly hcell2
    rcases hw : b.check_for_win rI cI d2 with _ | delta
    · rfl
    · exfalso
      have hiff := check_for_win_isSome_iff ⟨h1, h2, h3, h4⟩ hcell2
      rw [hw] at hiff
      obtain ⟨dr, dc, hmem, hline⟩ := hiff.mp rfl
      obtain ⟨j, hj, hre, hce⟩ := honly d2 rI cI dr dc hmem hline 0 (by omega)
      norm_num at hre hce
      omega
  have hwin0 : b.check_for_win r0 c0 d = some (r0, c0 + 3) := by
    have hdown : ¬4 ≤ (b.scanDir d 1 0 3 r0 c0 1).2.2 := by
      intro h4
      have hle := scanDir_le b d 1 0 3 r0 c0 1
      have heq : (b.scanDir d 1 0 3 r0 c0 1).2.2 = 1 + 3 := by omega
      have hmax := scanDir_count_max b d (by norm_num) (by norm_num) 3 r0 c0 1
        ⟨hr00, hr0lt, hc00, hc0lt⟩ heq
      have hline : b.LineFrom d r0 c0 1 0 :=
        lineFrom_of_steps ⟨hr00, hr0lt, hc00, hc0lt⟩ h00cell hmax
      obtain ⟨j, hj, hre, hce⟩ := honly d r0 c0 1 0 (by decide) hline 1 (by omega)
      norm_num at hre
    have hup : ¬4 ≤ (b.scanDir d (-1) 0 3 r0 c0 1).2.2 := by
      intro h4
      have hle := scanDir_le b d (-1) 0 3 r0 c0 1
      have heq : (b.scanDir d (-1) 0 3 r0 c0 1).2.2 = 1 + 3 := by omega
      have hmax := scanDir_count_max b d (by norm_num) (by norm_num) 3 r0 c0 1
        ⟨hr00, hr0lt, hc00, hc0lt⟩ heq
      have hline : b.LineFrom d r0 c0 (-1) 0 :=
        lineFrom_of_steps ⟨hr00, hr0lt, hc00, hc0lt⟩ h00cell hmax
      obtain ⟨j, hj, hre, hce⟩ := honly d r0 c0 (-1) 0 (by decide) hline 1 (by omega)
      norm_num at hre
    have hright := scanDir_complete b d 0 1 3 r0 c0 1 (by
      intro m h1 h3
      have hm := hrun m (by omega)
      exact ⟨hm.1, hm.2⟩)
    rw [Board.check_for_win]
    rw [show directions = [((1 : Int), (0 : Int)), (-1, 0), (0, 1), (0, -1),
      (1, 1), (-1, -1), (1, -1), (-1, 1)] from rfl]
    simp only [List.findSome?_cons]
    rw [hright]
    simp only [if_neg hdown, if_neg hup]
    norm_num
  rw [Board.check_for_wins]
  apply findSome?_range_eq_some (i := r0.toNat)
  · omega
  · apply findSome?_range_eq_some (i := c0.toNat)
    · omega
    · have hr0n : ((r0.toNat : Nat) : Int) = r0 := Int.toNat_of_nonneg hr00
      have hc0n : ((c0.toNat : Nat) : Int) = c0 := Int.toNat_of_nonneg hc00
      simp only [hr0n, hc0n, h00cell, hwin0]
    · intro j hj
      rcases hcell2 : b.cell ((r0.toNat : Nat) : Int) ((j : Nat) : Int) with _ | d2
      · simp only [hcell2]
      · simp only [hcell2]
        rw [hnowin _ _ d2 (by omega) (by omega) (by omega) (by omega)
          (Or.inr ⟨by omega, by omega⟩) hcell2]
  · intro i hi
    dsimp only
    rw [List.findSome?_eq_none_iff]
    intro colN hcolN
    rw [List.mem_range] at hcolN
    rcases hcell2 : b.cell ((i : Nat) : Int) ((colN : Nat) : Int) with _ | d2
    · simp only [hcell2]
    · simp only [hcell2]
      rw [hnowin _ _ d2 (by omega) (by omega) (by omega) (by omega)
        (Or.inl (by omega)) hcell2]

/-- Witness for C2: on the 1-by-4 all-red board, whose only win line is the
horizontal run at `(0, 0)..(0, 3)`, the scan reports Red with endpoints
`(0, 0)` and `(0, 3)`. -/
theorem check_for_wins_unique_horizontal_run_witness :
    (Board.mk 1 4 [[some Disk.red], [some Disk.red], [some Disk.red],
      [some Disk.red]]).check_for_wins =
      some (Turn.red, ((0 : Int), (0 : Int)), ((0 : Int), (3 : Int))) := by
  have honly : ∀ (d2 : Disk) (r c dr dc : Int), (dr, dc) ∈ directions →
      (Board.mk 1 4 [[some Disk.red], [some Disk.red], [some Disk.red],
        [some Disk.red]]).LineFrom d2 r c dr dc →
      ∀ k : Nat, k < 4 → ∃ j : Nat, j < 4 ∧
        r + k * dr = 0 ∧ c + k * dc = 0 + j := by
    intro d2 r c dr dc hmem hline k hk
    have hkin := (hline k hk).1
    simp only [Board.InBounds] at hkin
    exact ⟨(c + k * dc).toNat, by omega, by omega, by omega⟩
  have h := check_for_wins_unique_horizontal_run _ Disk.red 0 0 (by decide) honly
  simpa [Disk.to_turn] using h

end Connect4
